import Mathlib

/-!
# Verification of the chunked stream-transfer engine and layer upload writer

Shallow embedding of the `stream` package (`chunked_processor.go`) and of the
commit/write logic of `layer_writer.go` from the amazon-ecr-containerd-resolver
repository, together with proofs of the specification's testable properties.

The sequential model below embeds the data path of `ChunkedProcessor` for a
well-behaved source with no read error: the producer goroutine
(`readIntoChunks`/`readChunk`) produces a list of chunks in order, and the
consumer (`processChunks`) folds the caller's callback over them in that same
order.  The chunk sequence and the sequential callback results are independent
of the channel capacity `queueSize`, which only bounds buffering.  A separate
interleaving model (`ProcState`/`steps` below) captures the two goroutines,
the channels and the cancellation context for the teardown analysis.
-/

/-- A byte as read from the Go `io.Reader` (Go `byte` = `uint8`). -/
abbrev GoByte := Nat

/-- Embeds `stream.Chunk` (chunked_processor.go lines 10-16): a single part of
a full io stream.  `ReadTime` (a wall-clock `time.Duration`, informational
only) is omitted from the model. -/
structure Chunk where
  Bytes      : List GoByte
  Part       : Int
  BytesBegin : Int
  BytesEnd   : Int
  deriving Repr, DecidableEq

/-- Embeds `chunkedReader.readChunk` (chunked_processor.go lines 133-158) for a
reader positioned at `data`.  `io.ReadFull` into a `chunkSize`-byte buffer
reads `size = min chunkSize data.length` bytes; the returned flag is whether
the (normalized) error is `io.EOF`: `size = 0` gives `io.EOF`, a short read
`0 < size < chunkSize` gives `io.ErrUnexpectedEOF` which line 153-155 rewrites
to `io.EOF`, and a full read gives no error.  A chunk is returned iff
`size > 0`, with `BytesEnd = bytesBegin + size - 1`. -/
def readChunk (chunkSize : Nat) (data : List GoByte) (bytesBegin part : Int) :
    Option Chunk × Bool :=
  let size := min chunkSize data.length
  ((if 0 < size then
      some { Bytes := data.take size
             Part := part
             BytesBegin := bytesBegin
             BytesEnd := bytesBegin + (size : Int) - 1 }
    else none),
   decide (size < chunkSize))

/-- Embeds the loop of `chunkedReader.readIntoChunks` (chunked_processor.go
lines 69-96) run to completion (no cancellation, no read error): starting from
offset `bytesBegin` and part counter `part`, repeatedly call `readChunk`,
emit the chunk if one was produced, stop on `io.EOF`.  The `(none, false)`
case can only arise for `chunkSize = 0` (where the Go loop would spin forever
making no progress); the model is used with `chunkSize > 0`, matching the
spec's contract that `chunk_size` is positive. -/
def readIntoChunks (chunkSize : Nat) (data : List GoByte) (bytesBegin part : Int) :
    List Chunk :=
  -- `min chunkSize data.length` is the `size` returned by `io.ReadFull`.
  -- The recursive call receives `chunk.BytesEnd + 1 = bytesBegin + size` as the
  -- next offset (`currentBytes = chunk.BytesEnd + 1` in the Go loop).
  if h : 0 < min chunkSize data.length then
    if min chunkSize data.length < chunkSize then
      [{ Bytes := data.take (min chunkSize data.length)
         Part := part
         BytesBegin := bytesBegin
         BytesEnd := bytesBegin + ((min chunkSize data.length : Nat) : Int) - 1 }]
    else
      { Bytes := data.take (min chunkSize data.length)
        Part := part
        BytesBegin := bytesBegin
        BytesEnd := bytesBegin + ((min chunkSize data.length : Nat) : Int) - 1 } ::
      readIntoChunks chunkSize (data.drop (min chunkSize data.length))
        (bytesBegin + ((min chunkSize data.length : Nat) : Int)) (part + 1)
  else
    []
termination_by data.length
decreasing_by
  simp only [List.length_drop]
  omega

/-- Embeds `chunkedReader.processChunks` (chunked_processor.go lines 103-128):
the consumer receives the chunks in production order, records
`lastReadByte := chunk.BytesEnd`, invokes the callback, and returns `(0, err)`
on the first callback error; on a `nil` chunk (closed channel, end of stream)
it returns `(lastReadByte, nil)`.  The callback is modelled as
`Chunk → Option E`, where `some e` is a returned error. -/
def processChunks {E : Type} (readCallback : Chunk → Option E) :
    List Chunk → Int → Int × Option E
  | [], lastReadByte => (lastReadByte, none)
  | c :: rest, _ =>
    match readCallback c with
    | some err => (0, some err)
    | none => processChunks readCallback rest c.BytesEnd

/-- Embeds `stream.ChunkedProcessor` (chunked_processor.go lines 37-62) for a
well-behaved source with no read error: the producer reads `data` into chunks
starting at offset 0 and part counter 0 (`var currentBytes, currentPart int64`
zero-initializes both), and the consumer processes them in order with initial
`lastReadByte = 0`.  `queueSize` only sets the channel capacity and does not
affect the chunk sequence or the sequential callback results; it is kept to
mirror the Go signature. -/
def ChunkedProcessor {E : Type} (data : List GoByte) (chunkSize : Nat)
    (queueSize : Nat) (readCallback : Chunk → Option E) : Int × Option E :=
  let _ := queueSize
  processChunks readCallback (readIntoChunks chunkSize data 0 0) 0

/-- The chunks the callback is actually invoked on by `processChunks`: every
chunk up to and including the first one on which the callback errors. -/
def invokedChunks {E : Type} (readCallback : Chunk → Option E) :
    List Chunk → List Chunk
  | [] => []
  | c :: rest =>
    c :: (match readCallback c with
          | some _ => []
          | none => invokedChunks readCallback rest)

example : readIntoChunks 3 [65, 66, 67, 68, 69, 70, 71] 0 0 =
    [⟨[65, 66, 67], 0, 0, 2⟩, ⟨[68, 69, 70], 1, 3, 5⟩, ⟨[71], 2, 6, 6⟩] := by
  simp [readIntoChunks]

example : ChunkedProcessor (E := Nat) [65, 66, 67, 68, 69, 70, 71] 3 2
    (fun _ => none) = (6, none) := by
  simp [ChunkedProcessor, readIntoChunks, processChunks]

/-! ## Structural lemmas about the producer loop -/

lemma readIntoChunks_nil (S : Nat) (b p : Int) :
    readIntoChunks S [] b p = [] := by
  simp [readIntoChunks]

/-- One unfolding of the producer loop on a non-empty source: the first chunk
holds the first `min S data.length` bytes, and the loop continues on the
remainder with the offset and part counter advanced. -/
lemma readIntoChunks_cons (S : Nat) (hS : 0 < S) (data : List GoByte)
    (hd : data ≠ []) (b p : Int) :
    readIntoChunks S data b p =
      { Bytes := data.take S
        Part := p
        BytesBegin := b
        BytesEnd := b + ((min S data.length : Nat) : Int) - 1 } ::
      readIntoChunks S (data.drop S) (b + ((min S data.length : Nat) : Int)) (p + 1) := by
  have hlen : 0 < data.length := List.length_pos.mpr hd
  have hmin : 0 < min S data.length := by omega
  rw [readIntoChunks, dif_pos hmin]
  by_cases hcase : data.length < S
  · have hlt : min S data.length < S := by omega
    rw [if_pos hlt]
    have hmin2 : min S data.length = data.length := by omega
    have hdrop : data.drop S = [] := List.drop_eq_nil_of_le (by omega)
    have htake : data.take S = data.take (min S data.length) := by
      rw [hmin2, List.take_of_length_le (by omega), List.take_length]
    rw [hdrop, readIntoChunks_nil, htake]
  · have hge : ¬ (min S data.length < S) := by omega
    rw [if_neg hge]
    have hmin2 : min S data.length = S := by omega
    rw [hmin2]

lemma readIntoChunks_ne_nil (S : Nat) (hS : 0 < S) (data : List GoByte)
    (hd : data ≠ []) (b p : Int) :
    readIntoChunks S data b p ≠ [] := by
  rw [readIntoChunks_cons S hS data hd b p]
  exact List.cons_ne_nil _ _

/-- Concatenating the bytes of all produced chunks reproduces the source. -/
lemma readIntoChunks_join (S : Nat) (hS : 0 < S) (data : List GoByte)
    (b p : Int) :
    ((readIntoChunks S data b p).map (·.Bytes)).flatten = data := by
  suffices h : ∀ (n : Nat) (data : List GoByte), data.length ≤ n → ∀ (b p : Int),
      ((readIntoChunks S data b p).map (·.Bytes)).flatten = data by
    exact h data.length data le_rfl b p
  intro n
  induction n with
  | zero =>
    intro data hlen b p
    have : data = [] := List.length_eq_zero.mp (by omega)
    simp [this, readIntoChunks_nil]
  | succ n ih =>
    intro data hlen b p
    by_cases hd : data = []
    · simp [hd, readIntoChunks_nil]
    · rw [readIntoChunks_cons S hS data hd b p]
      simp only [List.map_cons, List.flatten_cons]
      rw [ih (data.drop S) (by simp [List.length_drop]; omega)]
      exact List.take_append_drop S data

/-- The number of produced chunks is `ceil (L / S)`. -/
lemma readIntoChunks_length (S : Nat) (hS : 0 < S) (data : List GoByte)
    (b p : Int) :
    (readIntoChunks S data b p).length = (data.length + S - 1) / S := by
  suffices h : ∀ (n : Nat) (data : List GoByte), data.length ≤ n → ∀ (b p : Int),
      (readIntoChunks S data b p).length = (data.length + S - 1) / S by
    exact h data.length data le_rfl b p
  intro n
  induction n with
  | zero =>
    intro data hlen b p
    have hdata : data = [] := List.length_eq_zero.mp (by omega)
    subst hdata
    rw [readIntoChunks_nil]
    simp only [List.length_nil]
    symm
    exact Nat.div_eq_of_lt (by omega)
  | succ n ih =>
    intro data hlen b p
    by_cases hd : data = []
    · subst hd
      rw [readIntoChunks_nil]
      simp only [List.length_nil]
      symm
      exact Nat.div_eq_of_lt (by omega)
    · have hlen0 : 0 < data.length := List.length_pos.mpr hd
      rw [readIntoChunks_cons S hS data hd b p]
      simp only [List.length_cons]
      rw [ih (data.drop S) (by simp [List.length_drop]; omega)]
      simp only [List.length_drop]
      rcases Nat.lt_or_ge data.length S with hcase | hcase
      · have h1 : data.length - S = 0 := by omega
        rw [h1]
        rw [Nat.div_eq_of_lt (by omega : 0 + S - 1 < S)]
        have h2 : data.length + S - 1 = (data.length - 1) + S := by omega
        rw [h2, Nat.add_div_right _ hS, Nat.div_eq_of_lt (by omega)]
      · have h2 : data.length + S - 1 = ((data.length - S) + S - 1) + S := by omega
        rw [h2, Nat.add_div_right _ hS]

/-- The first produced chunk starts at offset `b` with part counter `p` and
covers the first `min S data.length` bytes. -/
lemma readIntoChunks_head? (S : Nat) (hS : 0 < S) (data : List GoByte)
    (hd : data ≠ []) (b p : Int) :
    (readIntoChunks S data b p).head? =
      some { Bytes := data.take S
             Part := p
             BytesBegin := b
             BytesEnd := b + ((min S data.length : Nat) : Int) - 1 } := by
  rw [readIntoChunks_cons S hS data hd b p]
  rfl

/-- Every chunk except possibly the last holds exactly `S` bytes. -/
lemma readIntoChunks_dropLast_length (S : Nat) (hS : 0 < S) (data : List GoByte)
    (b p : Int) :
    ∀ c ∈ (readIntoChunks S data b p).dropLast, c.Bytes.length = S := by
  suffices h : ∀ (n : Nat) (data : List GoByte), data.length ≤ n → ∀ (b p : Int),
      ∀ c ∈ (readIntoChunks S data b p).dropLast, c.Bytes.length = S by
    exact h data.length data le_rfl b p
  intro n
  induction n with
  | zero =>
    intro data hlen b p
    have hdata : data = [] := List.length_eq_zero.mp (by omega)
    subst hdata
    simp [readIntoChunks_nil]
  | succ n ih =>
    intro data hlen b p c hc
    by_cases hd : data = []
    · subst hd
      simp [readIntoChunks_nil] at hc
    · rw [readIntoChunks_cons S hS data hd b p] at hc
      by_cases hrest : data.drop S = []
      · rw [hrest, readIntoChunks_nil] at hc
        simp at hc
      · have hSlt : S < data.length := by
          by_contra hcon
          exact hrest (List.drop_eq_nil_of_le (by omega))
        obtain ⟨r, t, hrt⟩ := List.exists_cons_of_ne_nil
          (readIntoChunks_ne_nil S hS (data.drop S) hrest
            (b + ((min S data.length : Nat) : Int)) (p + 1))
        rw [hrt, List.dropLast_cons₂, ← hrt] at hc
        rcases List.mem_cons.mp hc with hceq | hcmem
        · subst hceq
          simp only [List.length_take]
          omega
        · exact ih (data.drop S) (by simp [List.length_drop]; omega) _ _ c hcmem

/-- The last produced chunk holds `L mod S` bytes (`S` when `S` divides `L`)
and ends at offset `b + L - 1`. -/
lemma readIntoChunks_getLast? (S : Nat) (hS : 0 < S) (data : List GoByte)
    (b p : Int) :
    ∀ c, (readIntoChunks S data b p).getLast? = some c →
      c.Bytes.length = (if data.length % S = 0 then S else data.length % S) ∧
      c.BytesEnd = b + (data.length : Int) - 1 := by
  suffices h : ∀ (n : Nat) (data : List GoByte), data.length ≤ n → ∀ (b p : Int),
      ∀ c, (readIntoChunks S data b p).getLast? = some c →
        c.Bytes.length = (if data.length % S = 0 then S else data.length % S) ∧
        c.BytesEnd = b + (data.length : Int) - 1 by
    exact h data.length data le_rfl b p
  intro n
  induction n with
  | zero =>
    intro data hlen b p c hc
    have hdata : data = [] := List.length_eq_zero.mp (by omega)
    subst hdata
    simp [readIntoChunks_nil] at hc
  | succ n ih =>
    intro data hlen b p c hc
    by_cases hd : data = []
    · subst hd
      simp [readIntoChunks_nil] at hc
    · have hlen0 : 0 < data.length := List.length_pos.mpr hd
      rw [readIntoChunks_cons S hS data hd b p] at hc
      by_cases hrest : data.drop S = []
      · have hle : data.length ≤ S := by
          by_contra hcon
          have : data.drop S ≠ [] := by
            intro hnil
            have := List.length_drop S data ▸ congrArg List.length hnil
            simp at this
            omega
          exact this hrest
        rw [hrest, readIntoChunks_nil] at hc
        simp only [List.getLast?_singleton, Option.some.injEq] at hc
        subst hc
        have hmin : min S data.length = data.length := by omega
        constructor
        · simp only [List.length_take, hmin]
          rcases Nat.eq_or_lt_of_le hle with heq | hlt
          · rw [if_pos (by rw [← heq, Nat.mod_self])]
            omega
          · rw [if_neg (by rw [Nat.mod_eq_of_lt hlt]; omega)]
            rw [Nat.mod_eq_of_lt hlt]
        · simp only [hmin]
      · have hSlt : S < data.length := by
          by_contra hcon
          exact hrest (List.drop_eq_nil_of_le (by omega))
        obtain ⟨r, t, hrt⟩ := List.exists_cons_of_ne_nil
          (readIntoChunks_ne_nil S hS (data.drop S) hrest
            (b + ((min S data.length : Nat) : Int)) (p + 1))
        rw [hrt, List.getLast?_cons_cons, ← hrt] at hc
        have hmin : min S data.length = S := by omega
        rw [hmin] at hc
        obtain ⟨h1, h2⟩ := ih (data.drop S) (by simp [List.length_drop]; omega)
          (b + (S : Int)) (p + 1) c hc
        constructor
        · rw [h1]
          simp only [List.length_drop]
          have hmod : (data.length - S) % S = data.length % S := by
            conv_rhs => rw [show data.length = (data.length - S) + S by omega]
            rw [Nat.add_mod_right]
          rw [hmod]
        · rw [h2]
          simp only [List.length_drop]
          omega

/-- Each produced chunk satisfies `BytesEnd - BytesBegin + 1 = len (Bytes)`. -/
lemma readIntoChunks_mem_range (S : Nat) (hS : 0 < S) (data : List GoByte)
    (b p : Int) :
    ∀ c ∈ readIntoChunks S data b p,
      c.BytesEnd - c.BytesBegin + 1 = (c.Bytes.length : Int) := by
  suffices h : ∀ (n : Nat) (data : List GoByte), data.length ≤ n → ∀ (b p : Int),
      ∀ c ∈ readIntoChunks S data b p,
        c.BytesEnd - c.BytesBegin + 1 = (c.Bytes.length : Int) by
    exact h data.length data le_rfl b p
  intro n
  induction n with
  | zero =>
    intro data hlen b p
    have hdata : data = [] := List.length_eq_zero.mp (by omega)
    subst hdata
    simp [readIntoChunks_nil]
  | succ n ih =>
    intro data hlen b p c hc
    by_cases hd : data = []
    · subst hd
      simp [readIntoChunks_nil] at hc
    · rw [readIntoChunks_cons S hS data hd b p] at hc
      rcases List.mem_cons.mp hc with hceq | hcmem
      · subst hceq
        simp only [List.length_take]
        omega
      · exact ih (data.drop S) (by simp [List.length_drop]; omega) _ _ c hcmem

/-- The part counter of the chunk at index `i` is `p + i`. -/
lemma readIntoChunks_getElem?_part (S : Nat) (hS : 0 < S) (data : List GoByte)
    (b p : Int) :
    ∀ (i : Nat) (a : Chunk), (readIntoChunks S data b p)[i]? = some a →
      a.Part = p + (i : Int) := by
  suffices h : ∀ (n : Nat) (data : List GoByte), data.length ≤ n → ∀ (b p : Int),
      ∀ (i : Nat) (a : Chunk), (readIntoChunks S data b p)[i]? = some a →
        a.Part = p + (i : Int) by
    exact h data.length data le_rfl b p
  intro n
  induction n with
  | zero =>
    intro data hlen b p i a ha
    have hdata : data = [] := List.length_eq_zero.mp (by omega)
    subst hdata
    simp [readIntoChunks_nil] at ha
  | succ n ih =>
    intro data hlen b p i a ha
    by_cases hd : data = []
    · subst hd
      simp [readIntoChunks_nil] at ha
    · rw [readIntoChunks_cons S hS data hd b p] at ha
      match i with
      | 0 =>
        simp only [List.getElem?_cons_zero, Option.some.injEq] at ha
        subst ha
        simp
      | i + 1 =>
        simp only [List.getElem?_cons_succ] at ha
        have := ih (data.drop S) (by simp [List.length_drop]; omega) _ _ i a ha
        rw [this]
        push_cast
        ring

/-- Consecutive chunks are adjacent: the next chunk begins one byte after the
previous chunk ends. -/
lemma readIntoChunks_adjacent (S : Nat) (hS : 0 < S) (data : List GoByte)
    (b p : Int) :
    ∀ (i : Nat) (a a' : Chunk), (readIntoChunks S data b p)[i]? = some a →
      (readIntoChunks S data b p)[i + 1]? = some a' →
      a'.BytesBegin = a.BytesEnd + 1 := by
  suffices h : ∀ (n : Nat) (data : List GoByte), data.length ≤ n → ∀ (b p : Int),
      ∀ (i : Nat) (a a' : Chunk), (readIntoChunks S data b p)[i]? = some a →
        (readIntoChunks S data b p)[i + 1]? = some a' →
        a'.BytesBegin = a.BytesEnd + 1 by
    exact h data.length data le_rfl b p
  intro n
  induction n with
  | zero =>
    intro data hlen b p i a a' ha _
    have hdata : data = [] := List.length_eq_zero.mp (by omega)
    subst hdata
    simp [readIntoChunks_nil] at ha
  | succ n ih =>
    intro data hlen b p i a a' ha ha'
    by_cases hd : data = []
    · subst hd
      simp [readIntoChunks_nil] at ha
    · rw [readIntoChunks_cons S hS data hd b p] at ha ha'
      match i with
      | 0 =>
        simp only [List.getElem?_cons_zero, Option.some.injEq] at ha
        subst ha
        simp only [List.getElem?_cons_succ] at ha'
        have hrest : data.drop S ≠ [] := by
          intro hnil
          rw [hnil, readIntoChunks_nil] at ha'
          simp at ha'
        have hh := readIntoChunks_head? S hS (data.drop S) hrest
          (b + ((min S data.length : Nat) : Int)) (p + 1)
        rw [List.head?_eq_getElem?] at hh
        rw [ha'] at hh
        simp only [Option.some.injEq] at hh
        subst hh
        dsimp only
        omega
      | i + 1 =>
        simp only [List.getElem?_cons_succ] at ha ha'
        exact ih (data.drop S) (by simp [List.length_drop]; omega) _ _ i a a' ha ha'

/-! ## Lemmas about the consumer loop -/

/-- When the callback never errors, `processChunks` returns the running
`lastReadByte` accumulator folded over all chunks (the `BytesEnd` of the last
chunk, or the initial accumulator for an empty chunk list), with no error. -/
lemma processChunks_no_error {E : Type} (cb : Chunk → Option E) :
    ∀ (cs : List Chunk), (∀ c ∈ cs, cb c = none) → ∀ (l : Int),
      processChunks cb cs l = (cs.foldl (fun _ c => c.BytesEnd) l, none) := by
  intro cs
  induction cs with
  | nil =>
    intro _ l
    simp [processChunks]
  | cons c rest ih =>
    intro hnone l
    have hc : cb c = none := hnone c (by simp)
    simp only [processChunks, hc, List.foldl_cons]
    exact ih (fun x hx => hnone x (by simp [hx])) c.BytesEnd

/-- The `lastReadByte` fold returns the `BytesEnd` of the last chunk. -/
lemma foldl_bytesEnd_getLast? :
    ∀ (cs : List Chunk) (l : Int) (c : Chunk), cs.getLast? = some c →
      cs.foldl (fun _ x => x.BytesEnd) l = c.BytesEnd := by
  intro cs
  induction cs with
  | nil =>
    intro l c hc
    simp at hc
  | cons c' rest ih =>
    intro l c hc
    match rest, hc with
    | [], hc =>
      simp only [List.getLast?_singleton, Option.some.injEq] at hc
      subst hc
      simp
    | r :: t, hc =>
      rw [List.getLast?_cons_cons] at hc
      simp only [List.foldl_cons]
      exact ih c'.BytesEnd c hc

/-- When the callback errors on the chunk at index `k` and succeeds on all
earlier chunks, `processChunks` returns `(0, that error)`. -/
lemma processChunks_callback_error {E : Type} (cb : Chunk → Option E) :
    ∀ (k : Nat) (cs : List Chunk) (l : Int) (ck : Chunk) (e : E),
      (∀ (i : Nat) (c : Chunk), i < k → cs[i]? = some c → cb c = none) →
      cs[k]? = some ck → cb ck = some e →
      processChunks cb cs l = (0, some e) := by
  intro k
  induction k with
  | zero =>
    intro cs l ck e _ hk herr
    match cs with
    | [] => simp at hk
    | c :: rest =>
      simp only [List.getElem?_cons_zero, Option.some.injEq] at hk
      subst hk
      simp [processChunks, herr]
  | succ k ih =>
    intro cs l ck e hbefore hk herr
    match cs with
    | [] => simp at hk
    | c :: rest =>
      have hc : cb c = none := hbefore 0 c (Nat.succ_pos k) (by simp)
      simp only [processChunks, hc]
      exact ih rest c.BytesEnd ck e
        (fun i x hi hx => hbefore (i + 1) x (by omega) (by simpa using hx))
        (by simpa using hk) herr

/-- When the callback never errors, it is invoked on every chunk in order. -/
lemma invokedChunks_no_error {E : Type} (cb : Chunk → Option E) :
    ∀ (cs : List Chunk), (∀ c ∈ cs, cb c = none) → invokedChunks cb cs = cs := by
  intro cs
  induction cs with
  | nil => simp [invokedChunks]
  | cons c rest ih =>
    intro hnone
    have hc : cb c = none := hnone c (by simp)
    simp only [invokedChunks, hc]
    rw [ih (fun x hx => hnone x (by simp [hx]))]

/-- When the callback errors on the chunk at index `k` and succeeds on all
earlier chunks, it is invoked on exactly the first `k + 1` chunks. -/
lemma invokedChunks_callback_error {E : Type} (cb : Chunk → Option E) :
    ∀ (k : Nat) (cs : List Chunk) (ck : Chunk) (e : E),
      (∀ (i : Nat) (c : Chunk), i < k → cs[i]? = some c → cb c = none) →
      cs[k]? = some ck → cb ck = some e →
      invokedChunks cb cs = cs.take (k + 1) := by
  intro k
  induction k with
  | zero =>
    intro cs ck e _ hk herr
    match cs with
    | [] => simp at hk
    | c :: rest =>
      simp only [List.getElem?_cons_zero, Option.some.injEq] at hk
      subst hk
      simp [invokedChunks, herr]
  | succ k ih =>
    intro cs ck e hbefore hk herr
    match cs with
    | [] => simp at hk
    | c :: rest =>
      have hc : cb c = none := hbefore 0 c (Nat.succ_pos k) (by simp)
      simp only [invokedChunks, hc, List.take_succ_cons]
      rw [ih rest ck e
        (fun i x hi hx => hbefore (i + 1) x (by omega) (by simpa using hx))
        (by simpa using hk) herr]

/-! ## Claim theorems for the chunked transfer engine -/

/-- The 7-byte test input of the spec's example scenario: the ASCII bytes of
the string ABCDEFG. -/
def abcdefg : List GoByte := [65, 66, 67, 68, 69, 70, 71]

/-- The chunks produced for the example scenario (chunk size 3). -/
lemma readIntoChunks_abcdefg :
    readIntoChunks 3 abcdefg 0 0 =
      [{ Bytes := [65, 66, 67], Part := 0, BytesBegin := 0, BytesEnd := 2 },
       { Bytes := [68, 69, 70], Part := 1, BytesBegin := 3, BytesEnd := 5 },
       { Bytes := [71], Part := 2, BytesBegin := 6, BytesEnd := 6 }] := by
  simp [abcdefg, readIntoChunks]

/-- C1: for every source of length `L` and positive chunk size `S`, the
engine produces exactly `ceil (L / S)` chunks (`0` when `L = 0`, since the
formula evaluates to `0` there), every chunk except the last has length
exactly `S`, the last chunk has length `L mod S` (or `S` when `S` divides
`L`), and concatenating the bytes of all chunks in part order reproduces the
source exactly. -/
theorem chunking_correctness (S : Nat) (hS : 0 < S) (data : List GoByte) :
    (readIntoChunks S data 0 0).length = (data.length + S - 1) / S ∧
    (∀ c ∈ (readIntoChunks S data 0 0).dropLast, c.Bytes.length = S) ∧
    (∀ c, (readIntoChunks S data 0 0).getLast? = some c →
      c.Bytes.length = (if data.length % S = 0 then S else data.length % S)) ∧
    ((readIntoChunks S data 0 0).map (·.Bytes)).flatten = data :=
  ⟨readIntoChunks_length S hS data 0 0,
   readIntoChunks_dropLast_length S hS data 0 0,
   fun c hc => (readIntoChunks_getLast? S hS data 0 0 c hc).1,
   readIntoChunks_join S hS data 0 0⟩

/-- Witness for C1 at the concrete input ABCDEFG with chunk size 3. -/
theorem chunking_correctness_witness :
    0 < 3 ∧
    ((readIntoChunks 3 abcdefg 0 0).length = (abcdefg.length + 3 - 1) / 3 ∧
     (∀ c ∈ (readIntoChunks 3 abcdefg 0 0).dropLast, c.Bytes.length = 3) ∧
     (∀ c, (readIntoChunks 3 abcdefg 0 0).getLast? = some c →
       c.Bytes.length = (if abcdefg.length % 3 = 0 then 3 else abcdefg.length % 3)) ∧
     ((readIntoChunks 3 abcdefg 0 0).map (·.Bytes)).flatten = abcdefg) :=
  ⟨by decide, chunking_correctness 3 (by decide) abcdefg⟩

/-- C5: every produced chunk satisfies
`BytesEnd - BytesBegin + 1 = len Bytes`, the first chunk's `BytesBegin` is 0,
and each next chunk begins one byte after its predecessor ends. -/
theorem byte_range_invariant (S : Nat) (hS : 0 < S) (data : List GoByte) :
    (∀ c ∈ readIntoChunks S data 0 0,
      c.BytesEnd - c.BytesBegin + 1 = (c.Bytes.length : Int)) ∧
    (∀ c, (readIntoChunks S data 0 0).head? = some c → c.BytesBegin = 0) ∧
    (∀ (i : Nat) (a a' : Chunk), (readIntoChunks S data 0 0)[i]? = some a →
      (readIntoChunks S data 0 0)[i + 1]? = some a' →
      a'.BytesBegin = a.BytesEnd + 1) := by
  refine ⟨readIntoChunks_mem_range S hS data 0 0, ?_,
    readIntoChunks_adjacent S hS data 0 0⟩
  intro c hc
  by_cases hd : data = []
  · subst hd
    rw [readIntoChunks_nil] at hc
    simp at hc
  · rw [readIntoChunks_head? S hS data hd 0 0] at hc
    simp only [Option.some.injEq] at hc
    subst hc
    rfl

/-- Witness for C5 at the concrete input ABCDEFG with chunk size 3. -/
theorem byte_range_invariant_witness :
    0 < 3 ∧
    ((∀ c ∈ readIntoChunks 3 abcdefg 0 0,
       c.BytesEnd - c.BytesBegin + 1 = (c.Bytes.length : Int)) ∧
     (∀ c, (readIntoChunks 3 abcdefg 0 0).head? = some c → c.BytesBegin = 0) ∧
     (∀ (i : Nat) (a a' : Chunk), (readIntoChunks 3 abcdefg 0 0)[i]? = some a →
       (readIntoChunks 3 abcdefg 0 0)[i + 1]? = some a' →
       a'.BytesBegin = a.BytesEnd + 1)) :=
  ⟨by decide, byte_range_invariant 3 (by decide) abcdefg⟩

/-- C3: for every non-empty source, when the callback never errors,
`ChunkedProcessor` returns the `BytesEnd` of the last chunk, which equals the
total number of bytes read minus one, with no error; the callback is invoked
on every chunk in order.  In particular, the ABCDEFG example with chunk size 3
and queue size 2 produces the chunks ABC, DEF, G, invokes the callback on all
three in order, and returns `(6, nil)`. -/
theorem success_return_value {E : Type} (data : List GoByte) (S Q : Nat)
    (cb : Chunk → Option E) (hS : 0 < S) (hd : data ≠ [])
    (hcb : ∀ c, cb c = none) :
    ChunkedProcessor data S Q cb = ((data.length : Int) - 1, none) ∧
    invokedChunks cb (readIntoChunks S data 0 0) = readIntoChunks S data 0 0 ∧
    (readIntoChunks 3 abcdefg 0 0).map (·.Bytes) =
      [[65, 66, 67], [68, 69, 70], [71]] ∧
    invokedChunks cb (readIntoChunks 3 abcdefg 0 0) =
      readIntoChunks 3 abcdefg 0 0 ∧
    ChunkedProcessor (E := E) abcdefg 3 2 cb = (6, none) := by
  have hmem : ∀ (cs : List Chunk), ∀ c ∈ cs, cb c = none := fun _ c _ => hcb c
  refine ⟨?_, invokedChunks_no_error cb _ (hmem _), ?_, ?_, ?_⟩
  · show processChunks cb (readIntoChunks S data 0 0) 0 = _
    rw [processChunks_no_error cb _ (hmem _) 0]
    obtain ⟨c, hc⟩ : ∃ c, (readIntoChunks S data 0 0).getLast? = some c := by
      cases hlast : (readIntoChunks S data 0 0).getLast? with
      | none =>
        exact absurd (List.getLast?_eq_none_iff.mp hlast)
          (readIntoChunks_ne_nil S hS data hd 0 0)
      | some c => exact ⟨c, rfl⟩
    rw [foldl_bytesEnd_getLast? _ 0 c hc]
    have := (readIntoChunks_getLast? S hS data 0 0 c hc).2
    rw [this]
    congr 1
    omega
  · rw [readIntoChunks_abcdefg]
    rfl
  · exact invokedChunks_no_error cb _ (hmem _)
  · show processChunks cb (readIntoChunks 3 abcdefg 0 0) 0 = _
    rw [readIntoChunks_abcdefg]
    simp [processChunks, hcb]

/-- Witness for C3 at the spec's example scenario. -/
theorem success_return_value_witness :
    0 < 3 ∧ abcdefg ≠ [] ∧
    ChunkedProcessor (E := Nat) abcdefg 3 2 (fun _ => none) =
      ((abcdefg.length : Int) - 1, none) ∧
    ChunkedProcessor (E := Nat) abcdefg 3 2 (fun _ => none) = (6, none) :=
  ⟨by decide, by decide,
   (success_return_value (E := Nat) abcdefg 3 2 (fun _ => none) (by decide)
     (by decide) (fun _ => rfl)).1,
   (success_return_value (E := Nat) abcdefg 3 2 (fun _ => none) (by decide)
     (by decide) (fun _ => rfl)).2.2.2.2⟩

/-- C4: when the callback succeeds on every chunk before index `k` and
returns an error on the chunk at index `k`, `ChunkedProcessor` returns `0`
as the byte-count result together with exactly that error, and the callback
is invoked on no chunk after index `k`, for every queue capacity `Q`. -/
theorem fail_fast_on_callback_error {E : Type} (data : List GoByte)
    (S Q : Nat) (cb : Chunk → Option E) (k : Nat) (ck : Chunk) (e : E)
    (hbefore : ∀ (i : Nat) (c : Chunk), i < k →
      (readIntoChunks S data 0 0)[i]? = some c → cb c = none)
    (hk : (readIntoChunks S data 0 0)[k]? = some ck)
    (herr : cb ck = some e) :
    ChunkedProcessor data S Q cb = (0, some e) ∧
    invokedChunks cb (readIntoChunks S data 0 0) =
      (readIntoChunks S data 0 0).take (k + 1) :=
  ⟨processChunks_callback_error cb k _ 0 ck e hbefore hk herr,
   invokedChunks_callback_error cb k _ ck e hbefore hk herr⟩

/-- The callback used in the C4 witness: fails with error 42 on part 1 (the
second chunk). -/
def cbFailsOnPartOne : Chunk → Option Nat :=
  fun c => if c.Part = 1 then some 42 else none

/-- Witness for C4: on ABCDEFG with chunk size 3 and queue capacity 1, a
callback failing on the second chunk makes the transfer return `(0, 42)` and
the callback is invoked on exactly the first two chunks. -/
theorem fail_fast_on_callback_error_witness :
    ChunkedProcessor abcdefg 3 1 cbFailsOnPartOne = (0, some 42) ∧
    invokedChunks cbFailsOnPartOne (readIntoChunks 3 abcdefg 0 0) =
      (readIntoChunks 3 abcdefg 0 0).take 2 :=
  fail_fast_on_callback_error abcdefg 3 1 cbFailsOnPartOne 1
    { Bytes := [68, 69, 70], Part := 1, BytesBegin := 3, BytesEnd := 5 } 42
    (by
      intro i c hi hc
      have hi0 : i = 0 := by omega
      subst hi0
      rw [readIntoChunks_abcdefg] at hc
      simp only [List.getElem?_cons_zero, Option.some.injEq] at hc
      subst hc
      rfl)
    (by rw [readIntoChunks_abcdefg]; rfl)
    (by rfl)

/-- C9: for every positive chunk size and every queue capacity, running the
engine over an empty source produces zero chunks, never invokes the callback,
and returns `(0, nil)`. -/
theorem empty_source_transfer {E : Type} (S Q : Nat) (cb : Chunk → Option E)
    (hS : 0 < S) :
    ChunkedProcessor [] S Q cb = (0, none) ∧
    readIntoChunks S [] 0 0 = [] ∧
    invokedChunks cb (readIntoChunks S [] 0 0) = [] := by
  have h := readIntoChunks_nil S 0 0
  refine ⟨?_, h, ?_⟩
  · show processChunks cb (readIntoChunks S [] 0 0) 0 = _
    rw [h]
    rfl
  · rw [h]
    rfl

/-- Witness for C9 with chunk size 1, queue capacity 1, and a callback that
would error if it were ever invoked. -/
theorem empty_source_transfer_witness :
    0 < 1 ∧
    (ChunkedProcessor [] 1 1 (fun _ => some 7) = ((0 : Int), (none : Option Nat)) ∧
     readIntoChunks 1 [] 0 0 = [] ∧
     invokedChunks (fun _ => some 7) (readIntoChunks 1 [] 0 0) = []) :=
  ⟨by decide, empty_source_transfer 1 1 (fun _ => some 7) (by decide)⟩

/-- C8 (failing input): the claim — and the comment on the `Part` field of
`stream.Chunk` — says part numbering starts at 1, but `readIntoChunks`
zero-initializes `currentPart`, so on ABCDEFG with chunk size 3 the produced
part indices are 0, 1, 2: the first chunk's `Part` is 0, not 1 (subsequent
chunks do increase by exactly one). -/
theorem part_numbering_failing_input :
    (readIntoChunks 3 abcdefg 0 0).map (·.Part) = [0, 1, 2] ∧
    (∀ c, (readIntoChunks 3 abcdefg 0 0).head? = some c → c.Part = 0) := by
  constructor
  · rw [readIntoChunks_abcdefg]
    rfl
  · intro c hc
    rw [readIntoChunks_abcdefg] at hc
    simp only [List.head?_cons, Option.some.injEq] at hc
    subst hc
    rfl

/-! ## Layer upload writer: commit and write (layer_writer.go) -/

/-- A Go `error` value as observed by `layerWriter`: either an error
implementing `awserr.Error` (identified by its `Code()`), or a plain error
(e.g. `errors.New`).  The `awserr.Error` type assertion in `Commit` succeeds
exactly on the `awsErr` constructor. -/
inductive GoError
  | awsErr (code : String)
  | simpleErr (msg : String)
  deriving Repr, DecidableEq

/-- The part of `ecr.CompleteLayerUploadOutput` that `Commit` reads:
`LayerDigest *string` (`aws.StringValue nil = ""`). -/
structure CompleteLayerUploadOutput where
  LayerDigest : Option String
  deriving Repr, DecidableEq

/-- Result of `layerWriter.Commit`: `nil` or an error. -/
inductive CommitResult
  | ok
  | err (e : GoError)
  deriving Repr, DecidableEq

/-- Embeds Go's strings.HasPrefix as a byte/char prefix test on the string
contents. -/
def goHasPrefix (s pre : String) : Bool :=
  pre.data.isPrefixOf s.data

/-- Embeds `layerWriter.Commit` (layer_writer.go lines 157-203) after the
pipe close: `transferErr` is the value received from the background
transfer's error channel (`none` when the channel was closed without error
or the context was canceled first), and `complete` is the result of the
store's `CompleteLayerUpload` RPC.  A transfer error is returned as is.  A
failing RPC is converted to success exactly when the error is an
`awserr.Error` with code LayerAlreadyExistsException and the expected digest
string starts with "sha256:"; any other error is returned unchanged.  On a
successful RPC the returned digest must equal the expected digest exactly,
else a digest-mismatch error is returned. -/
def layerWriterCommit (transferErr : Option GoError) (expected : String)
    (complete : Except GoError CompleteLayerUploadOutput) : CommitResult :=
  match transferErr with
  | some e => .err e
  | none =>
    match complete with
    | .error e =>
      match e with
      | .awsErr code =>
        if code = "LayerAlreadyExistsException" && goHasPrefix expected "sha256:" then
          .ok
        else
          .err e
      | .simpleErr _ => .err e
    | .ok output =>
      if (output.LayerDigest.getD "") ≠ expected then
        .err (.simpleErr "ecr: failed to validate uploaded digest")
      else
        .ok

/-- State of the `lw.err` channel as seen by a receive in `layerWriter.Write`:
no sender and not closed (receive would block), a blocked sender holding an
error, or closed (receive yields the zero value `nil` immediately). -/
inductive ErrChannelState
  | openEmpty
  | pending (e : GoError)
  | closed
  deriving Repr, DecidableEq

/-- Result of `layerWriter.Write`: the returned byte count and error, and
whether the bytes were forwarded into the pipe (`lw.buf.Write` invoked). -/
structure WriteOutcome where
  n : Nat
  err : Option GoError
  forwarded : Bool
  deriving Repr, DecidableEq

/-- Embeds `layerWriter.Write` (layer_writer.go lines 137-147).  The Go
`select` has receive cases on `lw.err` and `lw.ctx.Done()` plus `default`:
a ready case is taken (Go picks uniformly at random when both are ready,
modelled by `pickErrCase`), and `default` — forwarding the bytes into the
pipe — runs only when neither channel is ready.  Receiving from the closed
`lw.err` channel yields the zero value `nil`, so `Write` returns `(0, nil)`.
The pipe itself is assumed open (the background reader end is live), so a
forwarded write returns `(len b, nil)`. -/
def layerWriterWrite (errCh : ErrChannelState) (ctxDone : Bool)
    (pickErrCase : Bool) (b : List GoByte) : WriteOutcome :=
  let errReady : Bool := match errCh with
    | .openEmpty => false
    | .pending _ => true
    | .closed => true
  if errReady && (pickErrCase || !ctxDone) then
    match errCh with
    | .pending e => { n := 0, err := some e, forwarded := false }
    | _ => { n := 0, err := none, forwarded := false }
  else if ctxDone then
    { n := 0, err := some (.simpleErr "lw.Write: closed"), forwarded := false }
  else
    { n := b.length, err := none, forwarded := true }

/-- C6: when the complete-upload RPC fails with the distinguished
LayerAlreadyExistsException and the expected digest uses the sha256
algorithm, `Commit` returns success; with any other digest algorithm the
store's original error is returned unchanged. -/
theorem commit_already_exists_idempotent (expected : String) :
    (goHasPrefix expected "sha256:" = true →
      layerWriterCommit none expected
        (.error (.awsErr "LayerAlreadyExistsException")) = .ok) ∧
    (goHasPrefix expected "sha256:" = false →
      layerWriterCommit none expected
        (.error (.awsErr "LayerAlreadyExistsException")) =
        .err (.awsErr "LayerAlreadyExistsException")) := by
  constructor
  · intro h
    simp [layerWriterCommit, h]
  · intro h
    simp [layerWriterCommit, h]

/-- Witness for C6: a sha256 digest commits successfully on already-exists;
a sha512 digest propagates the original error. -/
theorem commit_already_exists_idempotent_witness :
    (goHasPrefix "sha256:abc" "sha256:" = true ∧
      layerWriterCommit none "sha256:abc"
        (.error (.awsErr "LayerAlreadyExistsException")) = .ok) ∧
    (goHasPrefix "sha512:abc" "sha256:" = false ∧
      layerWriterCommit none "sha512:abc"
        (.error (.awsErr "LayerAlreadyExistsException")) =
        .err (.awsErr "LayerAlreadyExistsException")) :=
  ⟨⟨by decide, (commit_already_exists_idempotent "sha256:abc").1 (by decide)⟩,
   ⟨by decide, (commit_already_exists_idempotent "sha512:abc").2 (by decide)⟩⟩

/-- C7: when the complete-upload RPC succeeds but returns a digest different
from the expected digest, `Commit` returns a digest-mismatch error rather
than success. -/
theorem commit_digest_verification (expected actual : String)
    (hne : actual ≠ expected) :
    layerWriterCommit none expected (.ok { LayerDigest := some actual }) =
      .err (.simpleErr "ecr: failed to validate uploaded digest") := by
  simp [layerWriterCommit, hne]

/-- Witness for C7 at concrete distinct digests. -/
theorem commit_digest_verification_witness :
    "sha256:bbb" ≠ "sha256:aaa" ∧
    layerWriterCommit none "sha256:aaa"
      (.ok { LayerDigest := some "sha256:bbb" }) =
      .err (.simpleErr "ecr: failed to validate uploaded digest") :=
  ⟨by decide, commit_digest_verification "sha256:aaa" "sha256:bbb" (by decide)⟩

/-- C10: once the background transfer goroutine has terminated (`lw.err`
closed and the context canceled), every `Write` returns a byte count of 0
and never forwards bytes into the pipe, whichever ready select case Go
picks; when the select picks the error channel — possible after a transfer
that terminated without error — `Write` returns `(0, nil)`, silently
discarding the caller's bytes. -/
theorem write_after_transfer_terminated (pick : Bool) (b : List GoByte) :
    (layerWriterWrite .closed true pick b).n = 0 ∧
    (layerWriterWrite .closed true pick b).forwarded = false ∧
    layerWriterWrite .closed true true b =
      { n := 0, err := none, forwarded := false } := by
  refine ⟨?_, ?_, ?_⟩ <;> cases pick <;> rfl

/-! ## Interleaving model of ChunkedProcessor for teardown analysis

The sequential model above abstracts from scheduling.  To analyse the
teardown guarantee (spec: producer stopped and queue drained before the call
returns, on every exit path) the following small-step model captures the two
goroutines of `ChunkedProcessor`, the buffered `readChannel` (capacity `Q`),
the unbuffered `errorChannel`, and the cancellation context.  Chunk payloads
are irrelevant to teardown, so the queue is modelled by its occupancy count
and the source by a script of read outcomes. -/

/-- One outcome of `readChunk` in the producer loop, as scripted by the
source: a chunk (optionally together with `io.EOF` on a short read), a
non-EOF read error, or bare `io.EOF` with no chunk. -/
inductive ReadResult
  | chunk (eofAfter : Bool)
  | readErr
  | eof
  deriving Repr, DecidableEq

/-- Program counter of the producer goroutine `readIntoChunks`:
at the top of the loop; blocked sending a chunk on `readChannel` (with the
pending EOF flag); blocked sending a read error on the unbuffered
`errorChannel`; or returned (its deferred `close(readChannel)` has run). -/
inductive ProdPC
  | loop
  | sendChunk (eofAfter : Bool)
  | sendErr
  | exited
  deriving Repr, DecidableEq

/-- Program counter of the consumer side: the `select` loop of
`processChunks`; the deferred drain loop in `ChunkedProcessor` (entered after
`processChunks` returns, whose deferred `cancel()` has then run); or done
(drain finished, `close(errorChannel)` run, `ChunkedProcessor` returned). -/
inductive ConsPC
  | select
  | drain
  | done
  deriving Repr, DecidableEq

/-- Global state of one `ChunkedProcessor` call in the interleaving model. -/
structure ProcState where
  src        : List ReadResult  -- remaining scripted source outcomes
  prod       : ProdPC
  queue      : Nat              -- chunks buffered in readChannel
  readClosed : Bool             -- close(readChannel) has run
  cons       : ConsPC
  parts      : Nat              -- chunks handed to the callback so far
  canceled   : Bool             -- the context has been canceled
  deriving Repr, DecidableEq

/-- All states reachable in one step, parametrized by the channel capacity
`Q` and the scripted callback `cbFails` (whether the callback errors on the
n-th chunk).  Transitions follow chunked_processor.go:
producer at the loop top takes the `ctx.Done()` select case when canceled
(lines 74-76), else reads (line 78) and moves to a send or exits on EOF
(lines 79-92); a chunk send completes when the buffered channel has space
(line 85); an error send on the unbuffered channel is a rendezvous with the
consumer's `select` (line 80 with line 122); the consumer's `select` takes a
buffered chunk and runs the callback (lines 111-121, one atomic step here:
no other transition interacts with a running callback), receives `nil` after
close (line 112), or receives the producer's error (line 122), returning —
and cancelling via the deferred `cancel()` — on eof or error; the drain loop
(lines 52-57) discards buffered chunks and finishes only once `readChannel`
is closed. -/
def steps (Q : Nat) (cbFails : Nat → Bool) (s : ProcState) : List ProcState :=
  (match s.prod with
   | .loop =>
     if s.canceled then
       [{ s with prod := .exited, readClosed := true }]
     else
       match s.src with
       | [] => [{ s with prod := .exited, readClosed := true }]
       | r :: rest =>
         match r with
         | .chunk eofAfter => [{ s with prod := .sendChunk eofAfter, src := rest }]
         | .readErr => [{ s with prod := .sendErr, src := rest }]
         | .eof => [{ s with prod := .exited, readClosed := true, src := rest }]
   | .sendChunk eofAfter =>
     if s.queue < Q then
       [if eofAfter then
          { s with queue := s.queue + 1, prod := .exited, readClosed := true }
        else
          { s with queue := s.queue + 1, prod := .loop }]
     else
       []
   | .sendErr => []   -- rendezvous is a consumer step below
   | .exited => []) ++
  (match s.cons with
   | .select =>
     (if 0 < s.queue then
        [if cbFails s.parts then
           { s with queue := s.queue - 1, parts := s.parts + 1,
                    cons := .drain, canceled := true }
         else
           { s with queue := s.queue - 1, parts := s.parts + 1 }]
      else []) ++
     (if s.queue = 0 && s.readClosed then
        [{ s with cons := .drain, canceled := true }]
      else []) ++
     (if s.prod = .sendErr then
        [{ s with prod := .exited, readClosed := true,
                  cons := .drain, canceled := true }]
      else [])
   | .drain =>
     if 0 < s.queue then
       [{ s with queue := s.queue - 1 }]
     else if s.readClosed then
       [{ s with cons := .done }]
     else
       []
   | .done => [])

/-- The teardown the spec promises on return: `ChunkedProcessor` has
returned, the producer goroutine has exited, and the queue is drained. -/
def teardownComplete (s : ProcState) : Prop :=
  s.cons = .done ∧ s.prod = .exited ∧ s.queue = 0

instance (s : ProcState) : Decidable (teardownComplete s) := by
  unfold teardownComplete
  infer_instance

/-- The initial state of a `ChunkedProcessor` call on a scripted source. -/
def initState (src : List ReadResult) : ProcState :=
  { src := src, prod := .loop, queue := 0, readClosed := false,
    cons := .select, parts := 0, canceled := false }

/-- C2 (failing input): the teardown guarantee fails on a reachable
interleaving.  With queue capacity 2, a source that yields one chunk and then
a non-EOF read error, and a callback that errors on the first chunk, the
following schedule is reachable: the producer enqueues the chunk, then blocks
sending the read error on the unbuffered `errorChannel`; the consumer's
`select` takes the buffered chunk, the callback fails, and `processChunks`
returns, entering the drain loop.  The resulting state has no enabled
transition — the producer is blocked forever on `errorChannel <- err` (a
plain send, unreachable by cancellation), so `close(readChannel)` never runs
and the drain loop waits forever — yet teardown is not complete and the call
never returns. -/
theorem teardown_deadlock_reachable :
    (let cb : Nat → Bool := fun _ => true
     let s0 := initState [ReadResult.chunk false, ReadResult.readErr]
     let s1 : ProcState := { s0 with prod := .sendChunk false,
                                     src := [ReadResult.readErr] }
     let s2 : ProcState := { s1 with prod := .loop, queue := 1 }
     let s3 : ProcState := { s2 with prod := .sendErr, src := [] }
     let s4 : ProcState := { s3 with queue := 0, parts := 1,
                                     cons := .drain, canceled := true }
     s1 ∈ steps 2 cb s0 ∧ s2 ∈ steps 2 cb s1 ∧ s3 ∈ steps 2 cb s2 ∧
     s4 ∈ steps 2 cb s3 ∧ steps 2 cb s4 = [] ∧ ¬ teardownComplete s4) := by
  refine ⟨?_, ?_, ?_, ?_, ?_, ?_⟩ <;> decide

/-- Sanity check of the interleaving model: on a clean one-chunk source with
a non-failing callback, the call runs to completion and teardown completes. -/
example :
    (let cb : Nat → Bool := fun _ => false
     let s0 := initState [ReadResult.chunk true]
     let s1 : ProcState := { s0 with prod := .sendChunk true, src := [] }
     let s2 : ProcState := { s1 with prod := .exited, readClosed := true,
                                     queue := 1 }
     let s3 : ProcState := { s2 with queue := 0, parts := 1 }
     let s4 : ProcState := { s3 with cons := .drain, canceled := true }
     let s5 : ProcState := { s4 with cons := .done }
     s1 ∈ steps 2 cb s0 ∧ s2 ∈ steps 2 cb s1 ∧ s3 ∈ steps 2 cb s2 ∧
     s4 ∈ steps 2 cb s3 ∧ s5 ∈ steps 2 cb s4 ∧ teardownComplete s5) := by
  refine ⟨?_, ?_, ?_, ?_, ?_, ?_⟩ <;> decide
